import Mathlib

/-!
# doc2json

A shallow embedding of `doc2json.go` (command `doc2json`): the program reads
godoc formatted text from stdin, hands it to `goutil.DocParse`, maps every
parsed block to a `block` object with a string tag, marshals the list of
objects to JSON and writes it to stdout.

The process environment (argument vector, stdin, the JSON encoder, the stdout
write) is a record of responses, `World`; running `main` in a world gives an
`Outcome`: the exit status and the ordered trace of the effects performed.
-/

set_option maxRecDepth 100000

deriving instance DecidableEq for Except

namespace Doc2json

/-! ## Go slices -/

/-- A Go slice value: either the nil slice or a (possibly empty) sequence. -/
inductive Slice (α : Type) where
  | nil : Slice α
  | vals : List α → Slice α
deriving DecidableEq, Repr

/-- The elements a `range` loop visits; the nil slice has none. -/
def Slice.toList {α : Type} : Slice α → List α
  | .nil => []
  | .vals xs => xs

/-- Go `len(s)`. -/
def Slice.len {α : Type} (s : Slice α) : Nat := s.toList.length

/-- Go `make([]T, 0, n)`: a non-nil slice of length zero (the capacity is not
observable in this program). -/
def Slice.make {α : Type} (_cap : Nat) : Slice α := .vals []

/-- Go `append(s, x)`; the result is never nil. -/
def Slice.append {α : Type} : Slice α → α → Slice α
  | .nil, x => .vals [x]
  | .vals xs, x => .vals (xs ++ [x])

/-! ## Types of the imported parser package -/

/-- Modelled from the spec: the kind tag of package `goutil`, which is imported
by `doc2json.go` and not part of it. `Para`, `Head` and `Pre` are the three
constants `main` switches on ("one of paragraph, heading, preformatted");
`other` stands for every further value of the type, which `main` treats in its
`default` case. -/
inductive DocKind where
  | Para
  | Head
  | Pre
  | other (code : Nat)
deriving DecidableEq, Repr

/-- Modelled from the spec: the element type of the result of
`goutil.DocParse`, with the two fields `main` reads, `d.Kind` and `d.Lines`. -/
structure DocBlock where
  Kind : DocKind
  Lines : Slice String
deriving DecidableEq, Repr

/-! ## The program -/

/-- The output object, `type block struct { Kind string; Lines []string }`. -/
structure block where
  Kind : String
  Lines : Slice String
deriving DecidableEq, Repr

/-- The `switch d.Kind` of `main`: the tag `k`, or `none` for the `default`
case, which calls `log.Fatalln`. -/
def kindTag : DocKind → Option String
  | .Para => some "p"
  | .Head => some "h"
  | .Pre => some "pre"
  | .other _ => none

/-- The message of the `default` case. -/
def unrecognized : String := "godoc parser returned unrecognized output"

/-- The loop `for _, d := range doc` of `main`, started with the slice
`blocks` built so far: each iteration either appends one object or terminates
the process (`Except.error` carries the fatal message). -/
def rangeLoop : List DocBlock → Slice block → Except String (Slice block)
  | [], blocks => .ok blocks
  | d :: rest, blocks =>
    match kindTag d.Kind with
    | none => .error unrecognized
    | some k => rangeLoop rest (blocks.append { Kind := k, Lines := d.Lines })

/-- Lines 91 to 109 of `main`: `blocks := make([]block, 0, len(doc))` followed
by the loop. -/
def buildBlocks (doc : Slice DocBlock) : Except String (Slice block) :=
  rangeLoop doc.toList (Slice.make doc.len)

/-- The kinds with a case of their own in the `switch` of `main`. -/
def Recognized (k : DocKind) : Prop := k = .Para ∨ k = .Head ∨ k = .Pre

instance (k : DocKind) : Decidable (Recognized k) :=
  inferInstanceAs (Decidable (k = .Para ∨ k = .Head ∨ k = .Pre))

/-- The object one iteration of the loop appends for a block of recognized
kind (for other kinds no object is built; the tag is then left empty here). -/
def objectOf (d : DocBlock) : block :=
  { Kind := (kindTag d.Kind).getD "", Lines := d.Lines }

/-- The responses of the environment of one run. Errors are represented by
their message. -/
structure World where
  /-- The argument vector `os.Args`. -/
  Args : List String
  /-- The result of `ioutil.ReadAll(os.Stdin)`. -/
  ReadAll : Except String String
  /-- The function `goutil.DocParse`. -/
  DocParse : String → Slice DocBlock
  /-- The function `json.Marshal` on values of type `[]block`. -/
  Marshal : Slice block → Except String String
  /-- The result `(n, err)` of `os.Stdout.Write(bs)`. -/
  Write : String → Nat × Option String

/-- The effects `main` performs, in program order. -/
inductive Event where
  /-- The call `ioutil.ReadAll(os.Stdin)`. -/
  | readStdin
  /-- The call `goutil.DocParse(text)`. -/
  | parse (text : String)
  /-- The call `json.Marshal(v)`. -/
  | marshal (v : Slice block)
  /-- The call `os.Stdout.Write(bs)`, which reported `n` bytes written. -/
  | write (bs : String) (n : Nat)
  /-- A call of `log.Fatalf` or `log.Fatalln`: message to stderr, `os.Exit(1)`. -/
  | fatal (msg : String)
  /-- A run-time panic (index out of range), exit status 2. -/
  | panic
deriving DecidableEq, Repr

/-- The result of a run: exit status and trace of effects. -/
structure Outcome where
  status : Nat
  trace : List Event
deriving DecidableEq, Repr

/-- The message of `io.ErrShortWrite`. -/
def errShortWrite : String := "short write"

/-- Go `len(bs)` of a byte string. -/
def byteLen (bs : String) : Nat := bs.utf8ByteSize

/-- The function `main`. -/
def main (w : World) : Outcome :=
  if w.Args.length ≠ 1 then
    match w.Args with
    | [] => ⟨2, [.panic]⟩
    | a0 :: _ => ⟨1, [.fatal (a0 ++ " does not take any arguments")]⟩
  else
    match w.ReadAll with
    | .error err => ⟨1, [.readStdin, .fatal err]⟩
    | .ok stdin =>
      let doc := w.DocParse stdin
      match buildBlocks doc with
      | .error msg => ⟨1, [.readStdin, .parse stdin, .fatal msg]⟩
      | .ok blocks =>
        match w.Marshal blocks with
        | .error err =>
          ⟨1, [.readStdin, .parse stdin, .marshal blocks, .fatal err]⟩
        | .ok bs =>
          match w.Write bs with
          | (n, some err) =>
            ⟨1, [.readStdin, .parse stdin, .marshal blocks, .write bs n, .fatal err]⟩
          | (n, none) =>
            if n < byteLen bs then
              ⟨1, [.readStdin, .parse stdin, .marshal blocks, .write bs n,
                   .fatal errShortWrite]⟩
            else
              ⟨0, [.readStdin, .parse stdin, .marshal blocks, .write bs n]⟩

/-- The conditions under which a run succeeds: one argument vector entry,
stdin read without error, every parsed block of recognized kind, the value
built from the document marshalled without error, and the write reporting no
error and at least `len(bs)` bytes. -/
def RunConditions (w : World) : Prop :=
  w.Args.length = 1 ∧ ∃ stdin, w.ReadAll = .ok stdin ∧
    (∀ d ∈ (w.DocParse stdin).toList, Recognized d.Kind) ∧
    ∃ blocks bs, buildBlocks (w.DocParse stdin) = .ok blocks ∧ w.Marshal blocks = .ok bs ∧
      (w.Write bs).2 = none ∧ byteLen bs ≤ (w.Write bs).1

/-- Successful completion: `main` returns normally (exit status zero) and its
last effect is the write of the whole serialized form to stdout. -/
def CompletesSuccessfully (w : World) : Prop :=
  (main w).status = 0 ∧ ∃ stdin blocks bs n,
    (main w).trace = [.readStdin, .parse stdin, .marshal blocks, .write bs n] ∧
    w.Marshal blocks = .ok bs ∧ byteLen bs ≤ n

/-- Fatal termination: non-zero exit status, the last effect being a call of
`log.Fatal` or a panic. -/
def TerminatesFatally (w : World) : Prop :=
  (main w).status ≠ 0 ∧
    ∃ e, (main w).trace.getLast? = some e ∧ (e = .panic ∨ ∃ msg, e = .fatal msg)

/-! ## The JSON encoder

`json.Marshal` belongs to the Go standard library. The worlds used as concrete
instances below answer with the documented structural encoding: a nil slice is
`null`, a non-nil slice is a bracketed comma separated list, a struct is an
object with its fields in declaration order. The encoding of string literals
is a parameter. -/

/-- The encoding of a value of type `[]string`. -/
def jsonLines (quote : String → String) : Slice String → String
  | .nil => "null"
  | .vals ls => "[" ++ ",".intercalate (ls.map quote) ++ "]"

/-- The encoding of one `block`. -/
def jsonBlock (quote : String → String) (b : block) : String :=
  "\x7b\"Kind\":" ++ quote b.Kind ++ ",\"Lines\":" ++ jsonLines quote b.Lines ++ "\x7d"

/-- The encoding of a value of type `[]block`. -/
def jsonMarshal (quote : String → String) : Slice block → String
  | .nil => "null"
  | .vals bs => "[" ++ ",".intercalate (bs.map (jsonBlock quote)) ++ "]"

/-- String literals without escaping, sufficient for the concrete instances. -/
def plainQuote (s : String) : String := "\"" ++ s ++ "\""

/-- A world in which reading, marshalling and writing succeed, with the given
argument vector, stdin contents and parser. -/
def goodWorld (args : List String) (stdin : String)
    (parser : String → Slice DocBlock) : World where
  Args := args
  ReadAll := .ok stdin
  DocParse := parser
  Marshal := fun v => .ok (jsonMarshal plainQuote v)
  Write := fun bs => (byteLen bs, none)

/-- A parser that answers with one paragraph followed by a block of a kind
`main` does not know. -/
def strayParser (_text : String) : Slice DocBlock :=
  .vals [{ Kind := .Para, Lines := .vals ["a\n"] }, { Kind := .other 7, Lines := .nil }]

/-- A parser that answers with the nil slice. -/
def nilParser (_text : String) : Slice DocBlock := .nil

/-- A parser that answers with one block of each recognized kind. -/
def fixedParser (_text : String) : Slice DocBlock :=
  .vals [{ Kind := .Head, Lines := .vals ["T"] }, { Kind := .Para, Lines := .vals ["a\n", "b\n"] },
    { Kind := .Pre, Lines := .nil }]

/-! ## The segmenter

`goutil.DocParse` lives in an imported package whose source is not part of
`doc2json.go`. The definitions of this section follow section 4.1 of the
specification. -/

/-- Modelled from the spec: step 1 of the segmenter, missing from the source
(`goutil.DocParse`). "Split the input into lines, preserving each line's
trailing terminator as part of its content." -/
def splitLines : List Char → List (List Char)
  | [] => []
  | c :: cs =>
    if c = '\n' then [c] :: splitLines cs
    else
      match splitLines cs with
      | [] => [[c]]
      | l :: ls => (c :: l) :: ls

/-- Modelled from the spec: the derived fact is-blank of a line, missing from
the source (`goutil.DocParse`): the line "contains only whitespace, including
empty". -/
def isBlank (line : List Char) : Bool := line.all Char.isWhitespace

/-- Modelled from the spec: the derived fact is-indented of a line, missing
from the source (`goutil.DocParse`): the line "begins with at least one
whitespace character and is not blank". -/
def isIndented (line : List Char) : Bool :=
  !isBlank line &&
    match line with
    | [] => false
    | c :: _ => c.isWhitespace

/-- Modelled from the spec: the classification state of the segmenter, missing
from the source (`goutil.DocParse`): `none` (between blocks), `in-paragraph`,
`in-preformatted`. An open block carries its lines; an open paragraph also
records whether it was opened between blocks, that is, whether it is the first
block or was preceded by a blank line. -/
inductive SegState where
  | none
  | inParagraph (lines : List (List Char)) (bounded : Bool)
  | inPreformatted (lines : List (List Char))
deriving DecidableEq, Repr

/-- Modelled from the spec: the walk state of the segmenter, missing from the
source (`goutil.DocParse`): the blocks closed so far and the classification
state. -/
structure Seg where
  out : List DocBlock
  state : SegState
deriving DecidableEq, Repr

/-- Modelled from the spec: the lines of a block as strings, each "the original
line content including its trailing line terminator"; part of the segmenter
missing from the source (`goutil.DocParse`). -/
def mkLines (lines : List (List Char)) : Slice String :=
  .vals (lines.map String.mk)

/-- Modelled from the spec: removal of the trailing terminator before the
heading predicate is applied; part of the segmenter missing from the source
(`goutil.DocParse`). -/
def stripTerminator (line : List Char) : List Char :=
  if line.getLast? = some '\n' then line.dropLast else line

/-- Modelled from the spec: step 7 of the segmenter, missing from the source
(`goutil.DocParse`). A paragraph closed by a blank line or by the end of input
becomes a heading if it has exactly one line, was opened between blocks and
its line, terminator stripped, satisfies the heading predicate. -/
def closeParagraph (isHeading : List Char → Bool) (lines : List (List Char))
    (bounded : Bool) : DocBlock :=
  match lines with
  | [line] =>
    if bounded && isHeading (stripTerminator line) then
      { Kind := .Head, Lines := mkLines lines }
    else
      { Kind := .Para, Lines := mkLines lines }
  | _ => { Kind := .Para, Lines := mkLines lines }

/-- Modelled from the spec: steps 3 and 6 of the segmenter, missing from the
source (`goutil.DocParse`): a blank line or the end of input closes the current
block, if any. -/
def closeOpen (isHeading : List Char → Bool) (s : Seg) : List DocBlock :=
  match s.state with
  | .none => s.out
  | .inParagraph lines bounded => s.out ++ [closeParagraph isHeading lines bounded]
  | .inPreformatted lines => s.out ++ [{ Kind := .Pre, Lines := mkLines lines }]

/-- Modelled from the spec: steps 3, 4 and 5 of the segmenter, missing from the
source (`goutil.DocParse`): the transition on one line. -/
def segStep (isHeading : List Char → Bool) (s : Seg) (line : List Char) : Seg :=
  if isBlank line then
    { out := closeOpen isHeading s, state := .none }
  else if isIndented line then
    match s.state with
    | .inPreformatted lines => { out := s.out, state := .inPreformatted (lines ++ [line]) }
    | .inParagraph lines _ =>
      { out := s.out ++ [{ Kind := .Para, Lines := mkLines lines }],
        state := .inPreformatted [line] }
    | .none => { out := s.out, state := .inPreformatted [line] }
  else
    match s.state with
    | .inPreformatted lines =>
      { out := s.out ++ [{ Kind := .Pre, Lines := mkLines lines }],
        state := .inParagraph [line] false }
    | .inParagraph lines bounded =>
      { out := s.out, state := .inParagraph (lines ++ [line]) bounded }
    | .none => { out := s.out, state := .inParagraph [line] true }

/-- Modelled from the spec: the segmenter `segment(text) -> Document` of
section 4.1, missing from the source (`goutil.DocParse`), for a given heading
predicate. -/
def segmentWith (isHeading : List Char → Bool) (text : String) : Slice DocBlock :=
  .vals (closeOpen isHeading
    ((splitLines text.data).foldl (segStep isHeading) { out := [], state := .none }))

/-- Modelled from the spec: the terminal sentence punctuation of the heading
predicate, missing from the source (`goutil.DocParse`): "period, comma,
semicolon, colon". -/
def isTerminalPunct (c : Char) : Bool :=
  c = '.' || c = ',' || c = ';' || c = ':'

/-- Modelled from the spec: the allowed character set of the heading
predicate, missing from the source (`goutil.DocParse`): "letters, digits,
spaces, and a small set of punctuation such as apostrophes, hyphens, and
parentheses". -/
def isAllowedChar (c : Char) : Bool :=
  c.isAlpha || c.isDigit || c = ' ' || c = Char.ofNat 39 || c = '-' || c = '(' || c = ')'

/-- Modelled from the spec: the heading predicate of section 4.1, missing from
the source (`goutil.DocParse`): the line is non-empty, does not start with
whitespace, does not end with terminal sentence punctuation and consists only
of allowed characters. -/
def headingPredicate (line : List Char) : Bool :=
  match line with
  | [] => false
  | c :: _ =>
    !c.isWhitespace &&
      (match line.getLast? with
       | some z => !isTerminalPunct z
       | none => false) &&
      line.all isAllowedChar

/-- Modelled from the spec: the segmenter with the heading predicate of
section 4.1, standing for `goutil.DocParse`. -/
def segment (text : String) : Slice DocBlock := segmentWith headingPredicate text

/-- The concatenation of the `Lines` of all objects of a serialized value, in
output order. -/
def concatLines (v : Slice block) : List Char :=
  ((v.toList.flatMap fun b => b.Lines.toList).map String.data).flatten

/-- Modelled from the spec: the input "with every blank line removed and every
non-blank line kept verbatim, including its trailing line terminator, in its
original order". -/
def removeBlankLines (text : String) : List Char :=
  ((splitLines text.data).filter fun l => !isBlank l).flatten

/-- The example input of the package documentation. -/
def exampleInput : String :=
  "This is a paragraph.\n\nThis is a header\n\nThis is another paragraph.\nWith multiple lines.\n\tThis is preformatted\n\ttext\n"

/-- The value serialized for the example input when the parser is the
segmenter of section 4.1 of the specification. -/
def exampleOutput : Slice block :=
  .vals [
    { Kind := "p", Lines := .vals ["This is a paragraph.\n"] },
    { Kind := "h", Lines := .vals ["This is a header\n"] },
    { Kind := "p", Lines := .vals ["This is another paragraph.\n", "With multiple lines.\n"] },
    { Kind := "pre", Lines := .vals ["\tThis is preformatted\n", "\ttext\n"] }]

/-- The lines of a parsed block, as character sequences. -/
def blockLines (d : DocBlock) : List (List Char) := d.Lines.toList.map String.data

/-- The lines of the block that is open in a classification state. -/
def openLines : SegState → List (List Char)
  | .none => []
  | .inParagraph lines _ => lines
  | .inPreformatted lines => lines

/-- All lines a walk state holds: those of the closed blocks, then those of
the open block. -/
def Seg.lines (s : Seg) : List (List Char) := s.out.flatMap blockLines ++ openLines s.state

/-- The block invariants of the data model: the kind is one of the three, the
lines are not empty, a heading has exactly one line. -/
def GoodBlock (d : DocBlock) : Prop :=
  Recognized d.Kind ∧ d.Lines.toList ≠ [] ∧ (d.Kind = .Head → d.Lines.toList.length = 1)

/-- The invariant of the walk: closed blocks are good and an open block has at
least one line. -/
def GoodSeg (s : Seg) : Prop :=
  (∀ d ∈ s.out, GoodBlock d) ∧ (s.state = .none ∨ openLines s.state ≠ [])

/-! ## The loop of `main` -/

theorem kindTag_of_recognized (k : DocKind) (h : Recognized k) :
    kindTag k = some ((kindTag k).getD "") := by
  rcases h with h | h | h <;> (subst h; rfl)

theorem kindTag_of_not_recognized (k : DocKind) (h : ¬ Recognized k) :
    kindTag k = none := by
  cases k <;> simp [Recognized] at h
  rfl

theorem rangeLoop_recognized (ds : List DocBlock) (acc : List block)
    (h : ∀ d ∈ ds, Recognized d.Kind) :
    rangeLoop ds (.vals acc) = .ok (.vals (acc ++ ds.map objectOf)) := by
  induction ds generalizing acc with
  | nil => simp [rangeLoop]
  | cons d rest ih =>
    have hd : Recognized d.Kind := h d (List.mem_cons_self _ _)
    have hrest : ∀ x ∈ rest, Recognized x.Kind := fun x hx => h x (List.mem_cons_of_mem _ hx)
    rw [rangeLoop, kindTag_of_recognized _ hd]
    simp only [Slice.append]
    rw [ih _ hrest]
    simp [objectOf]

theorem rangeLoop_unrecognized (ds : List DocBlock) (blocks : Slice block)
    (h : ∃ d ∈ ds, ¬ Recognized d.Kind) :
    rangeLoop ds blocks = .error unrecognized := by
  induction ds generalizing blocks with
  | nil => simp at h
  | cons d rest ih =>
    by_cases hd : Recognized d.Kind
    · rw [rangeLoop, kindTag_of_recognized _ hd]
      simp only
      apply ih
      obtain ⟨x, hx, hxr⟩ := h
      rcases List.mem_cons.mp hx with rfl | hx
      · exact absurd hd hxr
      · exact ⟨x, hx, hxr⟩
    · rw [rangeLoop, kindTag_of_not_recognized _ hd]

theorem buildBlocks_recognized (doc : Slice DocBlock)
    (h : ∀ d ∈ doc.toList, Recognized d.Kind) :
    buildBlocks doc = .ok (.vals (doc.toList.map objectOf)) := by
  simpa [buildBlocks, Slice.make] using rangeLoop_recognized doc.toList [] h

theorem buildBlocks_unrecognized (doc : Slice DocBlock)
    (h : ∃ d ∈ doc.toList, ¬ Recognized d.Kind) :
    buildBlocks doc = .error unrecognized :=
  rangeLoop_unrecognized _ _ h

theorem buildBlocks_ok_iff (doc : Slice DocBlock) (v : Slice block) :
    buildBlocks doc = .ok v ↔
      (∀ d ∈ doc.toList, Recognized d.Kind) ∧ v = .vals (doc.toList.map objectOf) := by
  by_cases h : ∀ d ∈ doc.toList, Recognized d.Kind
  · rw [buildBlocks_recognized doc h]
    constructor
    · intro hv
      injection hv with hv
      exact ⟨h, hv.symm⟩
    · rintro ⟨_, rfl⟩
      rfl
  · have h2 : ∃ d ∈ doc.toList, ¬ Recognized d.Kind := by
      push_neg at h
      exact h
    rw [buildBlocks_unrecognized doc h2]
    constructor
    · intro hv
      cases hv
    · rintro ⟨h3, _⟩
      exact absurd h3 h

/-- Every run that reaches `json.Marshal` has read stdin and marshals the
value `buildBlocks` returns for the parsed document. -/
theorem marshal_mem_trace (w : World) (v : Slice block)
    (h : Event.marshal v ∈ (main w).trace) :
    w.Args.length = 1 ∧ ∃ stdin, w.ReadAll = .ok stdin ∧
      buildBlocks (w.DocParse stdin) = .ok v := by
  by_cases hargs : w.Args.length = 1
  · refine ⟨hargs, ?_⟩
    cases hread : w.ReadAll with
    | error e => simp [main, hargs, hread] at h
    | ok stdin =>
      refine ⟨stdin, rfl, ?_⟩
      cases hb : buildBlocks (w.DocParse stdin) with
      | error msg => simp [main, hargs, hread, hb] at h
      | ok blocks =>
        cases hm : w.Marshal blocks with
        | error e =>
          simp [main, hargs, hread, hb, hm] at h
          rw [h]
        | ok bs =>
          rcases hw : w.Write bs with ⟨n, _ | e⟩
          · by_cases hn : n < byteLen bs
            · simp [main, hargs, hread, hb, hm, hw, hn] at h
              rw [h]
            · simp [main, hargs, hread, hb, hm, hw, hn] at h
              rw [h]
          · simp [main, hargs, hread, hb, hm, hw] at h
            rw [h]
  · exfalso
    cases ha : w.Args with
    | nil => simp [main, ha] at h
    | cons a0 rest =>
      have : rest ≠ [] := by
        intro hr
        apply hargs
        simp [ha, hr]
      simp [main, ha, this] at h

/-- Every run that reaches `os.Stdout.Write` writes the encoding of the value
it marshalled. -/
theorem write_mem_trace (w : World) (bs : String) (n : Nat)
    (h : Event.write bs n ∈ (main w).trace) :
    ∃ v, Event.marshal v ∈ (main w).trace ∧ w.Marshal v = .ok bs := by
  by_cases hargs : w.Args.length = 1
  · cases hread : w.ReadAll with
    | error e => simp [main, hargs, hread] at h
    | ok stdin =>
      cases hb : buildBlocks (w.DocParse stdin) with
      | error msg => simp [main, hargs, hread, hb] at h
      | ok blocks =>
        cases hm : w.Marshal blocks with
        | error e => simp [main, hargs, hread, hb, hm] at h
        | ok bs0 =>
          refine ⟨blocks, ?_, ?_⟩
          · rcases hw : w.Write bs0 with ⟨m, _ | e⟩
            · by_cases hn : m < byteLen bs0
              · simp [main, hargs, hread, hb, hm, hw, hn]
              · simp [main, hargs, hread, hb, hm, hw, hn]
            · simp [main, hargs, hread, hb, hm, hw]
          · rcases hw : w.Write bs0 with ⟨m, _ | e⟩
            · by_cases hn : m < byteLen bs0
              · simp [main, hargs, hread, hb, hm, hw, hn] at h
                rw [h.1]
                exact hm
              · simp [main, hargs, hread, hb, hm, hw, hn] at h
                rw [h.1]
                exact hm
            · simp [main, hargs, hread, hb, hm, hw] at h
              rw [h.1]
              exact hm
  · exfalso
    cases ha : w.Args with
    | nil => simp [main, ha] at h
    | cons a0 rest =>
      have : rest ≠ [] := by
        intro hr
        apply hargs
        simp [ha, hr]
      simp [main, ha, this] at h

theorem objectOf_kind (d : DocBlock) :
    (d.Kind = .Para → (objectOf d).Kind = "p") ∧ (d.Kind = .Head → (objectOf d).Kind = "h") ∧
      (d.Kind = .Pre → (objectOf d).Kind = "pre") := by
  refine ⟨?_, ?_, ?_⟩ <;> intro h <;> simp [objectOf, h, kindTag]

theorem objectOf_kind_mem (d : DocBlock) (h : Recognized d.Kind) :
    (objectOf d).Kind = "p" ∨ (objectOf d).Kind = "h" ∨ (objectOf d).Kind = "pre" := by
  rcases h with h | h | h <;> simp [objectOf, h, kindTag]

/-! ## Claims about `main` -/

/-- C1: for every block `d` of recognized kind the iteration of the loop of
`main` for `d` appends an object whose `Kind` is "p" for `Para`, "h" for
`Head` and "pre" for `Pre`; and in every run that serializes a value, the
objects of that value correspond one by one to the blocks the parser returned,
with these tags. -/
theorem C1_kind_tags :
    (∀ (d : DocBlock) (rest : List DocBlock) (blocks : Slice block), Recognized d.Kind →
      ∃ b : block,
        (d.Kind = .Para → b.Kind = "p") ∧ (d.Kind = .Head → b.Kind = "h") ∧
        (d.Kind = .Pre → b.Kind = "pre") ∧
        rangeLoop (d :: rest) blocks = rangeLoop rest (blocks.append b)) ∧
    (∀ (w : World) (v : Slice block), Event.marshal v ∈ (main w).trace →
      ∃ stdin, w.ReadAll = .ok stdin ∧
        List.Forall₂
          (fun (d : DocBlock) (b : block) =>
            (d.Kind = .Para → b.Kind = "p") ∧ (d.Kind = .Head → b.Kind = "h") ∧
            (d.Kind = .Pre → b.Kind = "pre"))
          (w.DocParse stdin).toList v.toList) := by
  constructor
  · intro d rest blocks hd
    refine ⟨objectOf d, (objectOf_kind d).1, (objectOf_kind d).2.1, (objectOf_kind d).2.2, ?_⟩
    rw [rangeLoop, kindTag_of_recognized _ hd]
    rfl
  · intro w v h
    obtain ⟨_, stdin, hread, hb⟩ := marshal_mem_trace w v h
    refine ⟨stdin, hread, ?_⟩
    obtain ⟨_, rfl⟩ := (buildBlocks_ok_iff _ _).mp hb
    simp only [Slice.toList]
    rw [List.forall₂_map_right_iff]
    exact List.forall₂_same.mpr fun d _ => objectOf_kind d

/-- C2: when every block the parser returned has a recognized kind, `main`
serializes exactly one value; it has as many objects as the document has
blocks, and the `Lines` of its objects are, position by position, the `Lines`
of the blocks, unchanged. -/
theorem C2_lines_preserved (w : World) (stdin : String)
    (hargs : w.Args.length = 1) (hread : w.ReadAll = .ok stdin)
    (hk : ∀ d ∈ (w.DocParse stdin).toList, Recognized d.Kind) :
    ∃ v, Event.marshal v ∈ (main w).trace ∧
      (∀ v2, Event.marshal v2 ∈ (main w).trace → v2 = v) ∧
      v.len = (w.DocParse stdin).len ∧
      v.toList.map (fun b => b.Lines) = (w.DocParse stdin).toList.map (fun d => d.Lines) ∧
      ∀ (i : Nat) (hi : i < v.toList.length) (hj : i < (w.DocParse stdin).toList.length),
        (v.toList.get ⟨i, hi⟩).Lines = ((w.DocParse stdin).toList.get ⟨i, hj⟩).Lines := by
  have hb := buildBlocks_recognized _ hk
  refine ⟨.vals ((w.DocParse stdin).toList.map objectOf), ?_, ?_, ?_, ?_, ?_⟩
  · cases hm : w.Marshal (.vals ((w.DocParse stdin).toList.map objectOf)) with
    | error e => simp [main, hargs, hread, hb, hm]
    | ok bs =>
      rcases hw : w.Write bs with ⟨m, _ | e⟩
      · by_cases hn : m < byteLen bs
        · simp [main, hargs, hread, hb, hm, hw, hn]
        · simp [main, hargs, hread, hb, hm, hw, hn]
      · simp [main, hargs, hread, hb, hm, hw]
  · intro v2 h2
    obtain ⟨_, stdin2, hread2, hb2⟩ := marshal_mem_trace w v2 h2
    rw [hread] at hread2
    injection hread2 with h3
    subst h3
    rw [hb] at hb2
    injection hb2 with h4
    exact h4.symm
  · simp [Slice.len, Slice.toList]
  · simp [Slice.toList, objectOf]
  · intro i hi hj
    simp [Slice.toList, objectOf]

/-- C3: when the argument vector does not have length 1, `main` ends with a
non-zero status, its only effect is the fatal message (or the panic on an
empty argument vector): stdin is not read, the parser is not called, nothing
is marshalled or written; and the outcome does not depend on stdin or on any
other response of the environment. -/
theorem C3_arguments_rejected (w : World) (h : w.Args.length ≠ 1) :
    (main w).status ≠ 0 ∧
    ((main w).trace = [.panic] ∨ ∃ msg, (main w).trace = [.fatal msg]) ∧
    Event.readStdin ∉ (main w).trace ∧
    (∀ text, Event.parse text ∉ (main w).trace) ∧
    (∀ v, Event.marshal v ∉ (main w).trace) ∧
    (∀ bs n, Event.write bs n ∉ (main w).trace) ∧
    ∀ w2 : World, w2.Args = w.Args → main w2 = main w := by
  have key : ∀ w2 : World, w2.Args = w.Args → main w2 =
      match w.Args with
      | [] => ⟨2, [.panic]⟩
      | a0 :: _ => ⟨1, [.fatal (a0 ++ " does not take any arguments")]⟩ := by
    intro w2 h2
    have h3 : w2.Args.length ≠ 1 := by rw [h2]; exact h
    unfold main
    rw [if_pos h3, h2]
  have hw := key w rfl
  refine ⟨?_, ?_, ?_, ?_, ?_, ?_, ?_⟩
  · rw [hw]; cases w.Args <;> simp
  · rw [hw]; cases w.Args <;> simp
  · rw [hw]; cases w.Args <;> simp
  · intro text; rw [hw]; cases w.Args <;> simp
  · intro v; rw [hw]; cases w.Args <;> simp
  · intro bs n; rw [hw]; cases w.Args <;> simp
  · intro w2 h2; rw [key w2 h2, hw]

theorem C1_kind_tags_witness :
    Event.marshal (.vals [⟨"h", .vals ["T"]⟩, ⟨"p", .vals ["a\n", "b\n"]⟩, ⟨"pre", .nil⟩]) ∈
        (main (goodWorld ["doc2json"] "x" fixedParser)).trace ∧
      ∃ stdin, (goodWorld ["doc2json"] "x" fixedParser).ReadAll = .ok stdin ∧
        List.Forall₂
          (fun (d : DocBlock) (b : block) =>
            (d.Kind = .Para → b.Kind = "p") ∧ (d.Kind = .Head → b.Kind = "h") ∧
            (d.Kind = .Pre → b.Kind = "pre"))
          ((goodWorld ["doc2json"] "x" fixedParser).DocParse stdin).toList
          (Slice.vals [⟨"h", .vals ["T"]⟩, ⟨"p", .vals ["a\n", "b\n"]⟩, ⟨"pre", .nil⟩]).toList :=
  ⟨by decide, C1_kind_tags.2 (goodWorld ["doc2json"] "x" fixedParser) _ (by decide)⟩

theorem C2_lines_preserved_witness :
    ∃ v, Event.marshal v ∈ (main (goodWorld ["doc2json"] "x" fixedParser)).trace ∧
      (∀ v2, Event.marshal v2 ∈ (main (goodWorld ["doc2json"] "x" fixedParser)).trace → v2 = v) ∧
      v.len = (fixedParser "x").len ∧
      v.toList.map (fun b => b.Lines) = (fixedParser "x").toList.map (fun d => d.Lines) ∧
      ∀ (i : Nat) (hi : i < v.toList.length) (hj : i < (fixedParser "x").toList.length),
        (v.toList.get ⟨i, hi⟩).Lines = ((fixedParser "x").toList.get ⟨i, hj⟩).Lines :=
  C2_lines_preserved (goodWorld ["doc2json"] "x" fixedParser) "x" (by decide) rfl (by decide)

theorem C3_arguments_rejected_witness :
    (main (goodWorld ["doc2json", "-h"] "x" fixedParser)).status ≠ 0 ∧
    ((main (goodWorld ["doc2json", "-h"] "x" fixedParser)).trace = [.panic] ∨
      ∃ msg, (main (goodWorld ["doc2json", "-h"] "x" fixedParser)).trace = [.fatal msg]) ∧
    Event.readStdin ∉ (main (goodWorld ["doc2json", "-h"] "x" fixedParser)).trace ∧
    (∀ text, Event.parse text ∉ (main (goodWorld ["doc2json", "-h"] "x" fixedParser)).trace) ∧
    (∀ v, Event.marshal v ∉ (main (goodWorld ["doc2json", "-h"] "x" fixedParser)).trace) ∧
    (∀ bs n, Event.write bs n ∉ (main (goodWorld ["doc2json", "-h"] "x" fixedParser)).trace) ∧
    ∀ w2 : World, w2.Args = (goodWorld ["doc2json", "-h"] "x" fixedParser).Args →
      main w2 = main (goodWorld ["doc2json", "-h"] "x" fixedParser) :=
  C3_arguments_rejected (goodWorld ["doc2json", "-h"] "x" fixedParser) (by decide)

/-- C4: `main` completes successfully (status zero, the whole serialized form
written) exactly when the argument vector has length 1, stdin is read without
error, every parsed block has a recognized kind, marshalling returns no error
and the write returns no error and a count not below the length of the
serialized form; in every other case, a short write with nil error included,
it terminates fatally with a non-zero status. -/
theorem C4_success_iff (w : World) :
    (CompletesSuccessfully w ↔ RunConditions w) ∧
    (¬ RunConditions w → TerminatesFatally w) ∧
    (∀ stdin blocks bs n, w.Args.length = 1 → w.ReadAll = .ok stdin →
      buildBlocks (w.DocParse stdin) = .ok blocks → w.Marshal blocks = .ok bs →
      w.Write bs = (n, none) → n < byteLen bs →
      main w = ⟨1, [.readStdin, .parse stdin, .marshal blocks, .write bs n,
        .fatal errShortWrite]⟩) := by
  refine ⟨?_, ?_, ?_⟩
  rotate_left 2
  · intro stdin blocks bs n hargs hread hb hm hw hn
    simp [main, hargs, hread, hb, hm, hw, hn]
  all_goals
    by_cases hargs : w.Args.length = 1
    · cases hread : w.ReadAll with
      | error e =>
        simp [CompletesSuccessfully, RunConditions, TerminatesFatally, main, hargs, hread]
      | ok stdin =>
        cases hb : buildBlocks (w.DocParse stdin) with
        | error msg =>
          simp [CompletesSuccessfully, RunConditions, TerminatesFatally, main, hargs, hread, hb]
        | ok blocks =>
          have hk := ((buildBlocks_ok_iff _ _).mp hb).1
          cases hm : w.Marshal blocks with
          | error e =>
            simp [CompletesSuccessfully, RunConditions, TerminatesFatally, main, hargs, hread,
              hb, hm]
          | ok bs =>
            rcases hw : w.Write bs with ⟨n, _ | e⟩
            · by_cases hn : n < byteLen bs
              · simp [CompletesSuccessfully, RunConditions, TerminatesFatally, main, hargs,
                  hread, hb, hm, hw, hn]
              · simp [CompletesSuccessfully, RunConditions, TerminatesFatally, main, hargs,
                  hread, hb, hm, hw, hn]
                first
                  | exact hk
                  | exact ⟨fun _ => ⟨hk, Nat.le_of_not_lt hn⟩, fun _ =>
                      ⟨stdin, blocks, bs, n, ⟨rfl, rfl, rfl, rfl⟩, hm, Nat.le_of_not_lt hn⟩⟩
            · simp [CompletesSuccessfully, RunConditions, TerminatesFatally, main, hargs, hread,
                hb, hm, hw]
    · cases ha : w.Args with
      | nil => simp [CompletesSuccessfully, RunConditions, TerminatesFatally, main, ha]
      | cons a0 rest =>
        have : rest ≠ [] := by
          intro hr
          apply hargs
          simp [ha, hr]
        simp [CompletesSuccessfully, RunConditions, TerminatesFatally, main, ha, this]

theorem C4_success_iff_witness :
    RunConditions (goodWorld ["doc2json"] "x" fixedParser) ∧
      CompletesSuccessfully (goodWorld ["doc2json"] "x" fixedParser) :=
  have h : RunConditions (goodWorld ["doc2json"] "x" fixedParser) :=
    ⟨by decide, "x", rfl, by decide, _, _, rfl, rfl, rfl, by decide⟩
  ⟨h, (C4_success_iff (goodWorld ["doc2json"] "x" fixedParser)).1.mpr h⟩

/-- C5: whatever `main` writes to stdout is the encoding of a value all of
whose objects have `Kind` "p", "h" or "pre"; and if the parser returns a block
of any other kind, at any position, `main` ends with status 1 right after the
parser call: nothing is marshalled and nothing is written to stdout. -/
theorem C5_only_known_tags (w : World) :
    (∀ bs n, Event.write bs n ∈ (main w).trace →
      ∃ v, Event.marshal v ∈ (main w).trace ∧ w.Marshal v = .ok bs ∧
        ∀ b ∈ v.toList, b.Kind = "p" ∨ b.Kind = "h" ∨ b.Kind = "pre") ∧
    (∀ stdin, w.Args.length = 1 → w.ReadAll = .ok stdin →
      (∃ d ∈ (w.DocParse stdin).toList, ¬ Recognized d.Kind) →
      main w = ⟨1, [.readStdin, .parse stdin, .fatal unrecognized]⟩ ∧
      (main w).status ≠ 0 ∧
      (∀ v, Event.marshal v ∉ (main w).trace) ∧
      ∀ bs n, Event.write bs n ∉ (main w).trace) := by
  constructor
  · intro bs n h
    obtain ⟨v, hv, hm⟩ := write_mem_trace w bs n h
    refine ⟨v, hv, hm, ?_⟩
    obtain ⟨_, stdin, _, hb⟩ := marshal_mem_trace w v hv
    obtain ⟨hk, rfl⟩ := (buildBlocks_ok_iff _ _).mp hb
    intro b hb
    simp only [Slice.toList, List.mem_map] at hb
    obtain ⟨d, hd, rfl⟩ := hb
    exact objectOf_kind_mem d (hk d hd)
  · intro stdin hargs hread hbad
    have hb := buildBlocks_unrecognized _ hbad
    have hmain : main w = ⟨1, [.readStdin, .parse stdin, .fatal unrecognized]⟩ := by
      simp [main, hargs, hread, hb]
    refine ⟨hmain, ?_, ?_, ?_⟩
    · rw [hmain]; simp
    · intro v; rw [hmain]; simp
    · intro bs n; rw [hmain]; simp

theorem C5_only_known_tags_witness :
    (∃ d ∈ (strayParser "x").toList, ¬ Recognized d.Kind) ∧
    main (goodWorld ["doc2json"] "x" strayParser) =
        ⟨1, [.readStdin, .parse "x", .fatal unrecognized]⟩ ∧
      (main (goodWorld ["doc2json"] "x" strayParser)).status ≠ 0 ∧
      (∀ v, Event.marshal v ∉ (main (goodWorld ["doc2json"] "x" strayParser)).trace) ∧
      ∀ bs n, Event.write bs n ∉ (main (goodWorld ["doc2json"] "x" strayParser)).trace :=
  ⟨by decide,
    (C5_only_known_tags (goodWorld ["doc2json"] "x" strayParser)).2 "x" (by decide) rfl
      (by decide)⟩

/-- C10: whenever the parser returns a document without blocks (a nil slice
or an empty one), the value `main` passes to `json.Marshal` is the non-nil
empty slice, never the nil slice; with an encoder that renders the non-nil
empty slice as `[]`, the bytes handed to stdout are `[]`. -/
theorem C10_empty_document (w : World) (stdin : String)
    (hargs : w.Args.length = 1) (hread : w.ReadAll = .ok stdin)
    (hempty : (w.DocParse stdin).len = 0) :
    Event.marshal (.vals []) ∈ (main w).trace ∧
    (∀ v, Event.marshal v ∈ (main w).trace → v = .vals [] ∧ v ≠ .nil) ∧
    (w.Marshal (.vals []) = .ok "[]" →
      (∃ n, Event.write "[]" n ∈ (main w).trace) ∧
      ∀ bs n, Event.write bs n ∈ (main w).trace → bs = "[]") := by
  have hnil : (w.DocParse stdin).toList = [] := List.length_eq_zero.mp hempty
  have hb : buildBlocks (w.DocParse stdin) = .ok (.vals []) := by
    have := buildBlocks_recognized (w.DocParse stdin) (by simp [hnil])
    simpa [hnil] using this
  have huniq : ∀ v, Event.marshal v ∈ (main w).trace → v = .vals [] := by
    intro v hv
    obtain ⟨_, stdin2, hread2, hb2⟩ := marshal_mem_trace w v hv
    rw [hread] at hread2
    injection hread2 with h3
    subst h3
    rw [hb] at hb2
    injection hb2 with h4
    exact h4.symm
  refine ⟨?_, ?_, ?_⟩
  · cases hm : w.Marshal (.vals []) with
    | error e => simp [main, hargs, hread, hb, hm]
    | ok bs =>
      rcases hw : w.Write bs with ⟨m, _ | e⟩
      · by_cases hn : m < byteLen bs
        · simp [main, hargs, hread, hb, hm, hw, hn]
        · simp [main, hargs, hread, hb, hm, hw, hn]
      · simp [main, hargs, hread, hb, hm, hw]
  · intro v hv
    rw [huniq v hv]
    exact ⟨rfl, fun h => by cases h⟩
  · intro hm
    constructor
    · rcases hw : w.Write "[]" with ⟨m, _ | e⟩
      · refine ⟨m, ?_⟩
        by_cases hn : m < byteLen "[]"
        · simp [main, hargs, hread, hb, hm, hw, hn]
        · simp [main, hargs, hread, hb, hm, hw, hn]
      · exact ⟨m, by simp [main, hargs, hread, hb, hm, hw]⟩
    · intro bs n h
      obtain ⟨v, hv, hmv⟩ := write_mem_trace w bs n h
      rw [huniq v hv, hm] at hmv
      injection hmv with h5
      exact h5.symm

theorem C10_empty_document_witness :
    ((segment "\n\n\n").len = 0 ∧
      Event.marshal (.vals []) ∈ (main (goodWorld ["doc2json"] "\n\n\n" segment)).trace ∧
      (∃ n, Event.write "[]" n ∈ (main (goodWorld ["doc2json"] "\n\n\n" segment)).trace) ∧
      ∀ bs n, Event.write bs n ∈ (main (goodWorld ["doc2json"] "\n\n\n" segment)).trace →
        bs = "[]") ∧
    ((nilParser "x").len = 0 ∧
      ∀ v, Event.marshal v ∈ (main (goodWorld ["doc2json"] "x" nilParser)).trace →
        v = .vals [] ∧ v ≠ .nil) :=
  ⟨⟨by decide,
      (C10_empty_document (goodWorld ["doc2json"] "\n\n\n" segment) "\n\n\n" (by decide) rfl
        (by decide)).1,
      (C10_empty_document (goodWorld ["doc2json"] "\n\n\n" segment) "\n\n\n" (by decide) rfl
        (by decide)).2.2 (by decide)⟩,
    by decide,
    (C10_empty_document (goodWorld ["doc2json"] "x" nilParser) "x" (by decide) rfl
      (by decide)).2.1⟩

/-! ## The segmenter: coverage of the input lines -/

theorem splitLines_flatten (cs : List Char) : (splitLines cs).flatten = cs := by
  induction cs with
  | nil => rfl
  | cons c cs ih =>
    unfold splitLines
    split_ifs with hc
    · simp [ih]
    · cases hs : splitLines cs with
      | nil =>
        rw [hs] at ih
        simp at ih
        simp [← ih]
      | cons l ls =>
        rw [hs] at ih
        simp at ih
        simp [← ih]

theorem blockLines_mkLines (k : DocKind) (lines : List (List Char)) :
    blockLines { Kind := k, Lines := mkLines lines } = lines := by
  have h : (String.data ∘ String.mk) = (id : List Char → List Char) := rfl
  simp [blockLines, mkLines, Slice.toList, List.map_map, h]

theorem blockLines_closeParagraph (isHeading : List Char → Bool) (lines : List (List Char))
    (bounded : Bool) : blockLines (closeParagraph isHeading lines bounded) = lines := by
  unfold closeParagraph
  split
  · split_ifs <;> exact blockLines_mkLines _ _
  · exact blockLines_mkLines _ _

theorem closeOpen_lines (isHeading : List Char → Bool) (s : Seg) :
    (closeOpen isHeading s).flatMap blockLines = s.lines := by
  rcases s with ⟨out, st⟩
  cases st <;>
    simp [closeOpen, Seg.lines, openLines, blockLines_closeParagraph, blockLines_mkLines]

theorem segStep_lines (isHeading : List Char → Bool) (s : Seg) (line : List Char) :
    (segStep isHeading s line).lines = s.lines ++ [line].filter (fun l => !isBlank l) := by
  rcases s with ⟨out, st⟩
  by_cases hb : isBlank line = true
  · simp [segStep, hb, Seg.lines, openLines]
    exact closeOpen_lines isHeading ⟨out, st⟩
  · by_cases hi : isIndented line = true <;> cases st <;>
      simp [segStep, hb, hi, Seg.lines, openLines, blockLines_mkLines]

theorem foldl_segStep_lines (isHeading : List Char → Bool) (ls : List (List Char)) (s : Seg) :
    (ls.foldl (segStep isHeading) s).lines = s.lines ++ ls.filter (fun l => !isBlank l) := by
  induction ls generalizing s with
  | nil => simp
  | cons l ls ih =>
    rw [List.foldl_cons, ih, segStep_lines]
    by_cases hb : isBlank l = true <;> simp [hb]

theorem segmentWith_lines (isHeading : List Char → Bool) (text : String) :
    (segmentWith isHeading text).toList.flatMap blockLines =
      (splitLines text.data).filter (fun l => !isBlank l) := by
  simp only [segmentWith, Slice.toList]
  rw [closeOpen_lines, foldl_segStep_lines]
  simp [Seg.lines, openLines]

/-! ## The segmenter: block invariants -/

theorem goodBlock_closeParagraph (isHeading : List Char → Bool) (lines : List (List Char))
    (bounded : Bool) (h : lines ≠ []) : GoodBlock (closeParagraph isHeading lines bounded) := by
  unfold closeParagraph
  split
  · split_ifs <;> simp [GoodBlock, Recognized, mkLines, Slice.toList]
  · simp [GoodBlock, Recognized, mkLines, Slice.toList, h]

theorem goodBlock_closeOpen (isHeading : List Char → Bool) (s : Seg) (h : GoodSeg s) :
    ∀ d ∈ closeOpen isHeading s, GoodBlock d := by
  rcases s with ⟨out, st⟩
  obtain ⟨hout, hst⟩ := h
  cases st with
  | none => simpa [closeOpen] using hout
  | inParagraph lines bounded =>
    have hl : lines ≠ [] := by simpa [openLines] using hst
    intro d hd
    simp only [closeOpen, List.mem_append, List.mem_singleton] at hd
    rcases hd with hd | rfl
    · exact hout d hd
    · exact goodBlock_closeParagraph isHeading lines bounded hl
  | inPreformatted lines =>
    have hl : lines ≠ [] := by simpa [openLines] using hst
    intro d hd
    simp only [closeOpen, List.mem_append, List.mem_singleton] at hd
    rcases hd with hd | rfl
    · exact hout d hd
    · simp [GoodBlock, Recognized, mkLines, Slice.toList, hl]

theorem goodSeg_segStep (isHeading : List Char → Bool) (s : Seg) (line : List Char)
    (h : GoodSeg s) : GoodSeg (segStep isHeading s line) := by
  by_cases hb : isBlank line = true
  · simp only [segStep, hb, if_true]
    exact ⟨goodBlock_closeOpen isHeading s h, Or.inl rfl⟩
  · rcases s with ⟨out, st⟩
    obtain ⟨hout, hst⟩ := h
    have hclosed : ∀ (k : DocKind) (lines : List (List Char)), Recognized k → k ≠ .Head →
        lines ≠ [] → ∀ d ∈ out ++ [{ Kind := k, Lines := mkLines lines }], GoodBlock d := by
      intro k lines hk hk2 hl d hd
      rcases List.mem_append.mp hd with hd | hd
      · exact hout d hd
      · rw [List.mem_singleton] at hd
        subst hd
        exact ⟨hk, by simpa [mkLines, Slice.toList] using hl, fun h => absurd h hk2⟩
    by_cases hi : isIndented line = true
    · cases st with
      | none => exact ⟨by simpa [segStep, hb, hi] using hout, by simp [segStep, hb, hi, openLines]⟩
      | inParagraph lines bounded =>
        have hl : lines ≠ [] := by simpa [openLines] using hst
        refine ⟨?_, by simp [segStep, hb, hi, openLines]⟩
        simpa [segStep, hb, hi] using
          hclosed .Para lines (Or.inl rfl) (by decide) hl
      | inPreformatted lines =>
        exact ⟨by simpa [segStep, hb, hi] using hout, by simp [segStep, hb, hi, openLines]⟩
    · cases st with
      | none => exact ⟨by simpa [segStep, hb, hi] using hout, by simp [segStep, hb, hi, openLines]⟩
      | inParagraph lines bounded =>
        exact ⟨by simpa [segStep, hb, hi] using hout, by simp [segStep, hb, hi, openLines]⟩
      | inPreformatted lines =>
        have hl : lines ≠ [] := by simpa [openLines] using hst
        refine ⟨?_, by simp [segStep, hb, hi, openLines]⟩
        simpa [segStep, hb, hi] using
          hclosed .Pre lines (Or.inr (Or.inr rfl)) (by decide) hl

theorem goodSeg_foldl (isHeading : List Char → Bool) (ls : List (List Char)) (s : Seg)
    (h : GoodSeg s) : GoodSeg (ls.foldl (segStep isHeading) s) := by
  induction ls generalizing s with
  | nil => exact h
  | cons l ls ih => exact ih _ (goodSeg_segStep isHeading s l h)

theorem segmentWith_good (isHeading : List Char → Bool) (text : String) :
    ∀ d ∈ (segmentWith isHeading text).toList, GoodBlock d := by
  simp only [segmentWith, Slice.toList]
  apply goodBlock_closeOpen
  apply goodSeg_foldl
  exact ⟨by simp, Or.inl rfl⟩

theorem objectOf_lines_flatMap (ds : List DocBlock) :
    (((ds.map objectOf).flatMap fun b => b.Lines.toList).map String.data) =
      ds.flatMap blockLines := by
  induction ds with
  | nil => rfl
  | cons d ds ih =>
    simp only [List.map_cons, List.flatMap_cons, List.map_append, ih]
    rfl

theorem objectOf_head (d : DocBlock) (h : (objectOf d).Kind = "h") : d.Kind = .Head := by
  rcases d with ⟨k, ls⟩
  cases k <;> first | rfl | simp [objectOf, kindTag] at h

/-- The value a run with the segmenter as parser marshals is the list of the
objects of the segmented stdin. -/
theorem marshal_segmentWith (isHeading : List Char → Bool) (w : World) (v : Slice block)
    (hv : Event.marshal v ∈ (main { w with DocParse := segmentWith isHeading }).trace) :
    ∃ stdin, w.ReadAll = .ok stdin ∧
      v = .vals ((segmentWith isHeading stdin).toList.map objectOf) := by
  obtain ⟨_, stdin, hread, hb⟩ := marshal_mem_trace _ v hv
  exact ⟨stdin, hread, ((buildBlocks_ok_iff _ _).mp hb).2⟩

/-! ## Claims about the output for a given input text -/

/-- C7: for every input text (and every heading predicate), every object of
the value the program serializes has a `Lines` list that is not nil and not
empty. -/
theorem C7_lines_nonempty (isHeading : List Char → Bool) (w : World) (v : Slice block)
    (hv : Event.marshal v ∈ (main { w with DocParse := segmentWith isHeading }).trace) :
    ∀ b ∈ v.toList, b.Lines ≠ .nil ∧ b.Lines.toList ≠ [] := by
  obtain ⟨stdin, _, rfl⟩ := marshal_segmentWith isHeading w v hv
  intro b hb
  simp only [Slice.toList, List.mem_map] at hb
  obtain ⟨d, hd, rfl⟩ := hb
  have hg := (segmentWith_good isHeading stdin d hd).2.1
  refine ⟨?_, hg⟩
  intro hnil
  apply hg
  have : d.Lines = .nil := hnil
  rw [this]
  rfl

theorem C7_lines_nonempty_witness :
    Event.marshal exampleOutput ∈
      (main { goodWorld ["doc2json"] exampleInput fixedParser with
        DocParse := segmentWith headingPredicate }).trace ∧
    ∀ b ∈ exampleOutput.toList, b.Lines ≠ .nil ∧ b.Lines.toList ≠ [] :=
  ⟨by decide,
    C7_lines_nonempty headingPredicate (goodWorld ["doc2json"] exampleInput fixedParser)
      exampleOutput (by decide)⟩

/-- C8: for every input text (and every heading predicate), every object of
the value the program serializes whose `Kind` is "h" has exactly one line. -/
theorem C8_heading_single_line (isHeading : List Char → Bool) (w : World) (v : Slice block)
    (hv : Event.marshal v ∈ (main { w with DocParse := segmentWith isHeading }).trace) :
    ∀ b ∈ v.toList, b.Kind = "h" → b.Lines.toList.length = 1 := by
  obtain ⟨stdin, _, rfl⟩ := marshal_segmentWith isHeading w v hv
  intro b hb hkind
  simp only [Slice.toList, List.mem_map] at hb
  obtain ⟨d, hd, rfl⟩ := hb
  exact (segmentWith_good isHeading stdin d hd).2.2 (objectOf_head d hkind)

theorem C8_heading_single_line_witness :
    Event.marshal exampleOutput ∈
      (main { goodWorld ["doc2json"] exampleInput fixedParser with
        DocParse := segmentWith headingPredicate }).trace ∧
    (∃ b ∈ exampleOutput.toList, b.Kind = "h") ∧
    ∀ b ∈ exampleOutput.toList, b.Kind = "h" → b.Lines.toList.length = 1 :=
  ⟨by decide, by decide,
    C8_heading_single_line headingPredicate (goodWorld ["doc2json"] exampleInput fixedParser)
      exampleOutput (by decide)⟩

/-- C9: for every input text (and every heading predicate), the concatenation
of the `Lines` of all objects of the serialized value, in output order, is the
input with its blank lines removed and its non-blank lines kept verbatim, with
their terminators, in their order; the lines of the input are pieces whose
concatenation is the input. -/
theorem C9_concatenation (isHeading : List Char → Bool) (w : World) (v : Slice block)
    (hv : Event.marshal v ∈ (main { w with DocParse := segmentWith isHeading }).trace) :
    ∃ stdin, w.ReadAll = .ok stdin ∧ concatLines v = removeBlankLines stdin ∧
      (splitLines stdin.data).flatten = stdin.data := by
  obtain ⟨stdin, hread, rfl⟩ := marshal_segmentWith isHeading w v hv
  refine ⟨stdin, hread, ?_, splitLines_flatten _⟩
  unfold concatLines removeBlankLines
  change ((((segmentWith isHeading stdin).toList.map objectOf).flatMap
    fun b => b.Lines.toList).map String.data).flatten = _
  rw [objectOf_lines_flatMap, segmentWith_lines]

theorem C9_concatenation_witness :
    Event.marshal exampleOutput ∈
      (main { goodWorld ["doc2json"] exampleInput fixedParser with
        DocParse := segmentWith headingPredicate }).trace ∧
    ∃ stdin, (goodWorld ["doc2json"] exampleInput fixedParser).ReadAll = .ok stdin ∧
      concatLines exampleOutput = removeBlankLines stdin ∧
      (splitLines stdin.data).flatten = stdin.data :=
  ⟨by decide,
    C9_concatenation headingPredicate (goodWorld ["doc2json"] exampleInput fixedParser)
      exampleOutput (by decide)⟩

/-! ## The example scenarios of the specification -/

theorem scenario_one_paragraph :
    segment "Hello.\n" = .vals [⟨.Para, .vals ["Hello.\n"]⟩] := by decide

theorem scenario_heading_then_paragraph :
    segment "Overview\n\nThis is text.\n" =
      .vals [⟨.Head, .vals ["Overview\n"]⟩, ⟨.Para, .vals ["This is text.\n"]⟩] := by decide

theorem scenario_paragraph_then_preformatted :
    segment "Para one.\nStill para one.\n\n\tcode line\n\tmore code\n" =
      .vals [⟨.Para, .vals ["Para one.\n", "Still para one.\n"]⟩,
        ⟨.Pre, .vals ["\tcode line\n", "\tmore code\n"]⟩] := by decide

theorem scenario_only_blank_lines : segment "\n\n\n" = .vals [] := by decide

theorem scenario_two_lines :
    segment "A\nB\n" = .vals [⟨.Para, .vals ["A\n", "B\n"]⟩] := by decide

theorem scenario_blank_run_output :
    main (goodWorld ["doc2json"] "\n\n\n" segment) =
      ⟨0, [.readStdin, .parse "\n\n\n", .marshal (.vals []), .write "[]" 2]⟩ := by decide

end Doc2json
